import Mathlib

/-!
Shallow embedding of the ITU call-sign prefix trainer (itutrain.py).

Python strings are embedded as `List Char`, Python floats as `ℚ` (the
grading arithmetic only ever produces dyadic/decimal rationals), Python
dicts as `Option`-valued functions (`none` = key absent), and Python's
exceptions of the codec as `Except`.  The pseudo random sources
(`random.Random(seed)` as well as the module-level `random` used by
`random.shuffle`) are embedded as a stream of raw draws together with a
position; `_randbelow n` consumes one draw and reduces it modulo `n`,
which realizes every value below `n`.  Fisher-Yates (`random.shuffle`)
is translated literally from CPython: for `i` from `len-1` down to `1`
swap positions `i` and `randbelow (i+1)`.
-/

/-- Alphabet of prefix characters: space, the digits and the capital
letters, exactly the keys of the dict PREFIXCHAR_TO_BASE37. -/
abbrev IsPrefixChar (c : Char) : Prop :=
  c = ' ' ∨ ('0'.toNat ≤ c.toNat ∧ c.toNat ≤ '9'.toNat) ∨
    ('A'.toNat ≤ c.toNat ∧ c.toNat ≤ 'Z'.toNat)

/-- Digit value of one character, from the dict PREFIXCHAR_TO_BASE37:
space is 0, a digit c is ord(c) - ord('0') + 1, a letter c is
ord(c) - ord('A') + 11.  Characters outside the alphabet (a KeyError in
the source) are given the junk value 0; every claim restricts to the
alphabet. -/
def PREFIXCHAR_TO_BASE37 (c : Char) : Nat :=
  if c = ' ' then 0
  else if '0'.toNat ≤ c.toNat ∧ c.toNat ≤ '9'.toNat then c.toNat - '0'.toNat + 1
  else if 'A'.toNat ≤ c.toNat ∧ c.toNat ≤ 'Z'.toNat then c.toNat - 'A'.toNat + 11
  else 0

/-- Inverse dict BASE37_TO_PREFIXCHAR, on digit values 0..36. -/
def BASE37_TO_PREFIXCHAR (n : Nat) : Char :=
  if n = 0 then ' '
  else if n < 11 then Char.ofNat ('0'.toNat + (n - 1))
  else Char.ofNat ('A'.toNat + (n - 11))

/-- Loop body of prefix_to_base37: `for i, c in enumerate(reversed(p)):
result += PREFIXCHAR_TO_BASE37[c] * 37**i`. -/
def prefix_to_base37_go : List Char → Nat → Nat → Nat
  | [], _, result => result
  | c :: rest, i, result =>
    prefix_to_base37_go rest (i + 1) (result + PREFIXCHAR_TO_BASE37 c * 37 ^ i)

/-- Positional base-37 evaluation of a prefix string, most significant
character first (prefix_to_base37 in the source). -/
def prefix_to_base37 (p : List Char) : Nat :=
  prefix_to_base37_go p.reverse 0 0

/-- Loop of base37_to_prefix: `while num > 0: result.append(
BASE37_TO_PREFIXCHAR[num % 37]); num //= 37`, least significant digit
first.  The loop runs at most `num` times since `num` strictly
decreases, so it is written with that fuel bound to keep the
definition structurally recursive (kernel-computable); the fuel is
never exhausted. -/
def base37_to_prefix_go : Nat → Nat → List Char
  | _, 0 => []
  | 0, _ + 1 => []
  | fuel + 1, n + 1 =>
    BASE37_TO_PREFIXCHAR ((n + 1) % 37) :: base37_to_prefix_go fuel ((n + 1) / 37)

/-- Decoding of a base-37 value back to a prefix string
(base37_to_prefix in the source): collect remainders then reverse. -/
def base37_to_prefix (num : Nat) : List Char :=
  (base37_to_prefix_go num num).reverse

/-- Range expansion (expand_prefixset in the source): enumerate
`range(prefix_to_base37 start, prefix_to_base37 end + 1)` and decode
each value; raise ValueError when the range is empty.  The generator
checks emptiness before yielding anything, so failure is modelled as an
`Except.error` carrying no items. -/
def expand_prefixset (start stop : List Char) : Except String (List (List Char)) :=
  let r := List.range' (prefix_to_base37 start)
    (prefix_to_base37 stop + 1 - prefix_to_base37 start)
  if r.length = 0 then Except.error "invalid prefix range"
  else Except.ok (r.map base37_to_prefix)

deriving instance DecidableEq for Except

/-! Configuration constants of the trainer, from the top of the file. -/

/-- Number of data points kept per pair (TRAIN_KEEP). -/
def TRAIN_KEEP : Nat := 5

/-- Rolling-average threshold at which a pair counts as trained
(TRAIN_THRESHOLD = 0.8). -/
def TRAIN_THRESHOLD : ℚ := 8 / 10

/-- Similarity threshold for reverse grading
(TRAIN_CORRECT_THRESHOLD = 0.7). -/
def TRAIN_CORRECT_THRESHOLD : ℚ := 7 / 10

/-- Number of already-trained pairs to reconsider (TRAIN_RETRAIN). -/
def TRAIN_RETRAIN : Nat := 5

/-- Number of untrained pairs per training set (TRAIN_SET_SIZE). -/
def TRAIN_SET_SIZE : Nat := 15

/-! Random sources and the Fisher-Yates shuffle. -/

/-- Pseudo random source: a stream of raw draws and a current
position.  `random.Random(seed)` corresponds to a stream that is a
fixed function of the seed; the module-level source used by
`random.shuffle` is an arbitrary further `Rng`. -/
structure Rng where
  bits : Nat → Nat
  pos : Nat

/-- One draw of `_randbelow n`: consume the next raw draw, reduced
modulo `n`. -/
def randbelow (g : Rng) (n : Nat) : Nat × Rng :=
  (g.bits g.pos % n, ⟨g.bits, g.pos + 1⟩)

/-- Swap of two positions of a list, `x[i], x[j] = x[j], x[i]`. -/
def listSwap {α : Type} (l : List α) (i j : Nat) : List α :=
  match l[i]?, l[j]? with
  | some x, some y => (l.set i y).set j x
  | _, _ => l

/-- Loop of `random.shuffle`: for `i` descending to 1, swap position
`i` with position `randbelow (i+1)`. -/
def shuffleGo {α : Type} (l : List α) (g : Rng) : Nat → List α × Rng
  | 0 => (l, g)
  | i + 1 =>
    let p := randbelow g (i + 2)
    shuffleGo (listSwap l (i + 1) p.1) p.2 i

/-- Fisher-Yates shuffle (`random.shuffle`), starting at index
`len - 1`; lists of length at most 1 consume no draws. -/
def shuffle {α : Type} (l : List α) (g : Rng) : List α × Rng :=
  shuffleGo l g (l.length - 1)

/-! Scheduler (train_generate_directional_trainingset and
train_gather_trainingset). -/

/-- Rolling window `history[-TRAIN_KEEP:]`: the last TRAIN_KEEP
entries. -/
def lastWindow (l : List ℚ) : List ℚ :=
  l.drop (l.length - TRAIN_KEEP)

/-- Criterion under which a pair is appended to to_train: empty
window, or windowed mean below TRAIN_THRESHOLD, or window shorter than
TRAIN_KEEP / 2. -/
abbrev toTrainCriterion {κ : Type} (sub : κ → Option (List ℚ)) (pair : κ) : Prop :=
  lastWindow ((sub pair).getD []) = [] ∨
    (lastWindow ((sub pair).getD [])).sum / ((lastWindow ((sub pair).getD [])).length : ℚ) <
      TRAIN_THRESHOLD ∨
    ((lastWindow ((sub pair).getD [])).length : ℚ) < (TRAIN_KEEP : ℚ) / 2

/-- Partition loop of train_generate_directional_trainingset: each
pair of grouped_db goes to to_train (first component) when its window
is empty, or its mean score is below TRAIN_THRESHOLD, or the window is
shorter than TRAIN_KEEP / 2; otherwise to already_trained (second
component).  Order of appends is preserved. -/
def train_partition {κ : Type} (sub : κ → Option (List ℚ)) : List κ → List κ × List κ
  | [] => ([], [])
  | pair :: rest =>
    let history := lastWindow ((sub pair).getD [])
    let p := train_partition sub rest
    if history = [] then (pair :: p.1, p.2)
    else
      if history.sum / (history.length : ℚ) < TRAIN_THRESHOLD ∨
          (history.length : ℚ) < (TRAIN_KEEP : ℚ) / 2 then
        (pair :: p.1, p.2)
      else (p.1, pair :: p.2)

/-- Directional training-set generation: partition grouped_db, shuffle
already_trained with the module-level source, take the first
TRAIN_SET_SIZE of to_train, pad with already_trained up to
TRAIN_SET_SIZE + TRAIN_RETRAIN, shuffle the combined result with the
module-level source.  The source function does not receive the seeded
rng; both of its `random.shuffle` calls use the module-level source
`g`, which is threaded through and returned. -/
def train_generate_directional_trainingset {κ : Type} (sub : κ → Option (List ℚ))
    (grouped_db : List κ) (g : Rng) : List κ × Rng :=
  let p := train_partition sub grouped_db
  let sh := shuffle p.2 g
  let result := p.1.take TRAIN_SET_SIZE
  let result2 := result ++ sh.1.take (TRAIN_SET_SIZE - result.length + TRAIN_RETRAIN)
  shuffle result2 sh.2

/-- Database row: country, priority, tuple of expanded prefixes
(primary first). -/
structure Row where
  country : String
  priority : Int
  parts : List (List Char)
  deriving DecidableEq

/-- Forward pair `(country, parts)`. -/
abbrev PairF := String × List (List Char)

/-- Reverse pair `(parts, country)`. -/
abbrev PairR := List (List Char) × String

/-- Insertion step of a stable sort descending by priority, modelling
`sorted(db, key=lambda x: x[1], reverse=True)`: a row is placed before
the first row of not larger priority, so earlier rows precede later
rows of equal priority. -/
def insertByPriorityDesc (r : Row) : List Row → List Row
  | [] => [r]
  | s :: rest =>
    if s.priority ≤ r.priority then r :: s :: rest
    else s :: insertByPriorityDesc r rest

/-- Stable sort descending by priority (observationally equal to
CPython's stable `sorted` with `reverse=True`). -/
def sortByPriorityDesc : List Row → List Row
  | [] => []
  | r :: rest => insertByPriorityDesc r (sortByPriorityDesc rest)

/-- Grouping of consecutive rows of equal priority, modelling
`itertools.groupby(db, key=lambda x: x[1])`. -/
def chunkByPriority : List Row → List (List Row)
  | [] => []
  | [r] => [[r]]
  | r :: s :: rest =>
    match chunkByPriority (s :: rest) with
    | [] => [[r]]
    | gp :: gps =>
      if r.priority = s.priority then (r :: gp) :: gps else [r] :: gp :: gps

/-- Per-group shuffle with the seeded rng followed by concatenation:
`rng.shuffle(rows); grouped_db.extend(rows)` for every priority
group. -/
def shuffleGroups : List (List Row) → Rng → List Row × Rng
  | [], rng => ([], rng)
  | gp :: gps, rng =>
    let sh := shuffle gp rng
    let rest := shuffleGroups gps sh.2
    (sh.1 ++ rest.1, rest.2)

/-- History store of a run: the two sub-maps keyed "forward" and
"reverse" (the persisted seed itself is represented by the seeded rng
derived from it). -/
structure TrainData where
  forward : PairF → Option (List ℚ)
  reverse : PairR → Option (List ℚ)

/-- Training-set construction (train_gather_trainingset): stable-sort
by priority descending, shuffle each priority group with the seeded
rng, then generate the forward and the reverse directional training
sets; those two calls draw from the module-level source `g`, forward
first.  The history store is threaded through unchanged: the source
only ever reads it here (`trainsubdata.get`). -/
def train_gather_trainingset (traindata : TrainData) (db : List Row) (rng g : Rng) :
    (List PairF × List PairR) × TrainData × Rng × Rng :=
  let gr := shuffleGroups (chunkByPriority (sortByPriorityDesc db)) rng
  let forward_db := gr.1.map (fun r => (r.country, r.parts))
  let reverse_db := gr.1.map (fun r => (r.parts, r.country))
  let f := train_generate_directional_trainingset traindata.forward forward_db g
  let r := train_generate_directional_trainingset traindata.reverse reverse_db f.2
  ((f.1, r.1), traindata, gr.2, r.2)

/-! Scoring engine (train_single_forward and train_single_reverse). -/

/-- Denominator guard `len(s) or 1` of the source. -/
def orOne (n : Nat) : ℚ :=
  if n = 0 then 1 else n

/-- Score of one forward answer: 0.5 for the primary prefix being
submitted; the submission and the secondary set each lose the primary;
0.5 more on exact secondary match, else the symmetric-difference
penalty `(1 - missing/(len or 1)) * (1 - extra/(len or 1)) * 0.5`. -/
def forwardScore (answer0 : Finset (List Char)) (primary : List Char)
    (others0 : List (List Char)) : ℚ :=
  let score1 : ℚ := if primary ∈ answer0 then 1 / 2 else 0
  let others : Finset (List Char) := others0.toFinset \ {primary}
  let answer : Finset (List Char) := answer0 \ {primary}
  if others = answer then score1 + 1 / 2
  else
    score1 +
      ((1 - ((others \ answer).card : ℚ) / orOne others.card) *
        (1 - ((answer \ others).card : ℚ) / orOne answer.card)) * (1 / 2)

/-- Append of one graded attempt, `trainsubdata.setdefault(pair,
[]).append(score)`: the entry of `pair` (created as the empty sequence
when absent) is extended by `score`; every other entry is the `if`
else-branch, untouched. -/
def histAppend {κ : Type} [DecidableEq κ] (sub : κ → Option (List ℚ)) (pair : κ)
    (score : ℚ) : κ → Option (List ℚ) :=
  fun q => if q = pair then some (((sub pair).getD []) ++ [score]) else sub q

/-- Forward grading of one pair (train_single_forward): grade the
submitted set (an absent submission is `query(...) or set()`, the
empty set), append the score to the forward sub-map, return both.  A
pair with an empty prefix tuple would fail Python's unpacking before
any grading; that unreachable case returns the store unchanged. -/
def train_single_forward (sub : PairF → Option (List ℚ)) (pair : PairF)
    (answer : Finset (List Char)) : ℚ × (PairF → Option (List ℚ)) :=
  match pair.2 with
  | [] => (0, sub)
  | primary :: others0 =>
    let score := forwardScore answer primary others0
    (score, histAppend sub pair score)

/-- Reverse grading of one pair (train_single_reverse): an absent
submission scores 0, otherwise the similarity of the submission with
the country; the score is then binarized against
TRAIN_CORRECT_THRESHOLD and appended to the reverse sub-map.  The
similarity measure (difflib.SequenceMatcher().ratio() in the source)
is external library code and is passed in as a parameter. -/
def train_single_reverse (similarity : String → String → ℚ)
    (sub : PairR → Option (List ℚ)) (pair : PairR) (answer : Option String) :
    ℚ × (PairR → Option (List ℚ)) :=
  match pair.1 with
  | [] => (0, sub)
  | _ :: _ =>
    let score0 : ℚ :=
      match answer with
      | none => 0
      | some a => similarity a pair.2
    let score : ℚ := if TRAIN_CORRECT_THRESHOLD ≤ score0 then 1 else 0
    (score, histAppend sub pair score)

/-! Codec lemmas. -/

theorem prefix_to_base37_go_eq (l : List Char) (i r : Nat) :
    prefix_to_base37_go l i r = r + 37 ^ i * Nat.ofDigits 37 (l.map PREFIXCHAR_TO_BASE37) := by
  induction l generalizing i r with
  | nil => simp [prefix_to_base37_go, Nat.ofDigits]
  | cons c rest ih =>
    simp only [prefix_to_base37_go, List.map_cons, Nat.ofDigits_cons, ih]
    ring

theorem prefix_to_base37_eq_ofDigits (p : List Char) :
    prefix_to_base37 p = Nat.ofDigits 37 (p.reverse.map PREFIXCHAR_TO_BASE37) := by
  simp [prefix_to_base37, prefix_to_base37_go_eq]

theorem base37_to_prefix_go_eq_aux :
    ∀ fuel n, n ≤ fuel →
      base37_to_prefix_go fuel n = (Nat.digits 37 n).map BASE37_TO_PREFIXCHAR := by
  intro fuel
  induction fuel with
  | zero =>
    intro n hn
    obtain rfl : n = 0 := Nat.le_zero.mp hn
    simp [base37_to_prefix_go]
  | succ f ih =>
    intro n hn
    match n with
    | 0 => simp [base37_to_prefix_go]
    | m + 1 =>
      have hdiv : (m + 1) / 37 ≤ f := by
        have := Nat.div_lt_self (Nat.succ_pos m) (by norm_num : 1 < 37)
        omega
      rw [show base37_to_prefix_go (f + 1) (m + 1) =
            BASE37_TO_PREFIXCHAR ((m + 1) % 37) :: base37_to_prefix_go f ((m + 1) / 37)
          from rfl,
        Nat.digits_def' (by norm_num : (1:ℕ) < 37) (Nat.succ_pos m),
        List.map_cons, ih ((m + 1) / 37) hdiv]

theorem base37_to_prefix_go_eq (n : Nat) :
    base37_to_prefix_go n n = (Nat.digits 37 n).map BASE37_TO_PREFIXCHAR :=
  base37_to_prefix_go_eq_aux n n (Nat.le_refl n)

theorem map_id_of_mem {α : Type} (f : α → α) :
    ∀ l : List α, (∀ a ∈ l, f a = a) → l.map f = l
  | [], _ => rfl
  | a :: rest, h => by
    rw [List.map_cons, h a (List.mem_cons_self a rest),
      map_id_of_mem f rest (fun b hb => h b (List.mem_cons_of_mem a hb))]

theorem charVal_lt (c : Char) : PREFIXCHAR_TO_BASE37 c < 37 := by
  have h0 : '0'.toNat = 48 := rfl
  have h9 : '9'.toNat = 57 := rfl
  have hA : 'A'.toNat = 65 := rfl
  have hZ : 'Z'.toNat = 90 := rfl
  unfold PREFIXCHAR_TO_BASE37
  split_ifs <;> omega

theorem charVal_b37 : ∀ n, n < 37 → PREFIXCHAR_TO_BASE37 (BASE37_TO_PREFIXCHAR n) = n := by
  decide

theorem b37_valid : ∀ n, n < 37 → IsPrefixChar (BASE37_TO_PREFIXCHAR n) := by
  decide

theorem b37_ne_space : ∀ n, n < 37 → n ≠ 0 → BASE37_TO_PREFIXCHAR n ≠ ' ' := by
  decide

theorem charVal_roundtrip (c : Char) (h : IsPrefixChar c) :
    BASE37_TO_PREFIXCHAR (PREFIXCHAR_TO_BASE37 c) = c := by
  have h0 : '0'.toNat = 48 := rfl
  have h9 : '9'.toNat = 57 := rfl
  have hA : 'A'.toNat = 65 := rfl
  have hZ : 'Z'.toNat = 90 := rfl
  rcases h with h | ⟨h1, h2⟩ | ⟨h1, h2⟩
  · subst h; decide
  · have hne : c ≠ ' ' := by
      intro e; subst e; revert h1; decide
    rw [PREFIXCHAR_TO_BASE37, if_neg hne, if_pos ⟨h1, h2⟩,
      BASE37_TO_PREFIXCHAR, if_neg (by omega), if_pos (by omega)]
    have he : '0'.toNat + (c.toNat - '0'.toNat + 1 - 1) = c.toNat := by omega
    rw [he, Char.ofNat_toNat]
  · have hne : c ≠ ' ' := by
      intro e; subst e; revert h1; decide
    rw [PREFIXCHAR_TO_BASE37, if_neg hne, if_neg (by omega), if_pos ⟨h1, h2⟩,
      BASE37_TO_PREFIXCHAR, if_neg (by omega), if_neg (by omega)]
    have he : 'A'.toNat + (c.toNat - 'A'.toNat + 11 - 11) = c.toNat := by omega
    rw [he, Char.ofNat_toNat]

theorem charVal_ne_zero (c : Char) (h : IsPrefixChar c) (hs : c ≠ ' ') :
    PREFIXCHAR_TO_BASE37 c ≠ 0 := by
  have h0 : '0'.toNat = 48 := rfl
  have hA : 'A'.toNat = 65 := rfl
  rcases h with h | ⟨h1, h2⟩ | ⟨h1, h2⟩
  · exact absurd h hs
  · rw [PREFIXCHAR_TO_BASE37, if_neg hs, if_pos ⟨h1, h2⟩]; omega
  · have h9 : '9'.toNat = 57 := rfl
    rw [PREFIXCHAR_TO_BASE37, if_neg hs, if_neg (by omega), if_pos ⟨h1, h2⟩]; omega

theorem encode_decode (n : Nat) : prefix_to_base37 ( base37_to_prefix n) = n := by
  rw [prefix_to_base37_eq_ofDigits, base37_to_prefix, List.reverse_reverse,
    base37_to_prefix_go_eq, List.map_map,
    map_id_of_mem (PREFIXCHAR_TO_BASE37 ∘ BASE37_TO_PREFIXCHAR) _
      (fun d hd => charVal_b37 d (Nat.digits_lt_base (by norm_num) hd))]
  exact Nat.ofDigits_digits 37 n

theorem decode_encode (p : List Char) (hv : ∀ c ∈ p, IsPrefixChar c)
    (hh : p.head? ≠ some ' ') : base37_to_prefix (prefix_to_base37 p) = p := by
  rw [prefix_to_base37_eq_ofDigits, base37_to_prefix, base37_to_prefix_go_eq,
    Nat.digits_ofDigits 37 (by norm_num) (p.reverse.map PREFIXCHAR_TO_BASE37)
      (fun d _ => by
        simp only [List.mem_map] at *
        obtain ⟨c, _, rfl⟩ := by assumption
        exact charVal_lt c)
      ?_]
  · rw [List.map_map,
      map_id_of_mem (BASE37_TO_PREFIXCHAR ∘ PREFIXCHAR_TO_BASE37) _
        (fun c hc => charVal_roundtrip c (hv c (List.mem_reverse.mp hc))),
      List.reverse_reverse]
  · intro hL
    have hp : p ≠ [] := by
      intro e; subst e; simp at hL
    obtain ⟨c0, rest, rfl⟩ := List.exists_cons_of_ne_nil hp
    have hlast : ((c0 :: rest).reverse.map PREFIXCHAR_TO_BASE37).getLast? =
        some (PREFIXCHAR_TO_BASE37 c0) := by
      simp
    rw [List.getLast?_eq_getLast _ hL] at hlast
    have hc0 : c0 ≠ ' ' := by
      intro e; subst e; simp at hh
    have := charVal_ne_zero c0 (hv c0 (List.mem_cons_self c0 rest)) hc0
    simp only [Option.some_inj] at hlast
    rw [hlast]
    exact this

/-- Validity of every decoded character. -/
theorem decode_valid (n : Nat) : ∀ c ∈ base37_to_prefix n, IsPrefixChar c := by
  intro c hc
  rw [ base37_to_prefix, List.mem_reverse, base37_to_prefix_go_eq, List.mem_map] at hc
  obtain ⟨d, hd, rfl⟩ := hc
  exact b37_valid d (Nat.digits_lt_base (by norm_num) hd)

theorem range'_getLast? (s : Nat) : ∀ n : Nat, n ≠ 0 →
    (List.range' s n).getLast? = some (s + n - 1) := by
  intro n
  induction n generalizing s with
  | zero => intro h; exact absurd rfl h
  | succ m ih =>
    intro _
    rw [List.range'_succ]
    cases m with
    | zero => simp
    | succ k =>
      rw [List.range'_succ, List.getLast?_cons_cons, ← List.range'_succ]
      rw [ih (s + 1) (Nat.succ_ne_zero k)]
      congr 1
      omega

/-- C1 counterexample: the one-character string consisting of the
space character (digit 0) is over the alphabet, but decoding its
encoding yields the empty string, not the original. -/
theorem c1_roundtrip_counterexample :
    IsPrefixChar ' ' ∧ base37_to_prefix (prefix_to_base37 [' ']) ≠ [' '] := by
  decide

/-- C1 (amended): decoding the encoding returns the string unchanged
for every string over the alphabet that does not begin with the space
character; a leading space (a leading digit of value 0) is dropped by
decoding, so the claim fails for such strings. -/
theorem c1_roundtrip_amended (p : List Char) (hv : ∀ c ∈ p, IsPrefixChar c)
    (hh : p.head? ≠ some ' ') : base37_to_prefix (prefix_to_base37 p) = p :=
  decode_encode p hv hh

/-- Witness for C1 (amended) at the concrete string "D1". -/
theorem c1_roundtrip_amended_witness :
    (∀ c ∈ ['D', '1'], IsPrefixChar c) ∧ ['D', '1'].head? ≠ some ' ' ∧
      base37_to_prefix (prefix_to_base37 ['D', '1']) = ['D', '1'] :=
  ⟨by decide, by decide, c1_roundtrip_amended ['D', '1'] (by decide) (by decide)⟩

/-- C7 (amended): for prefix strings a and b over the alphabet that do
not begin with the space character and with encode(a) ≤ encode(b),
expand_prefixset yields exactly encode(b) - encode(a) + 1 strings,
first a, last b, with strictly ascending encodings.  For an input with
a leading space the first/last item is the canonical decoding, not the
input itself. -/
theorem c7_expand_range_enumeration (a b : List Char)
    (hva : ∀ c ∈ a, IsPrefixChar c) (hvb : ∀ c ∈ b, IsPrefixChar c)
    (hha : a.head? ≠ some ' ') (hhb : b.head? ≠ some ' ')
    (hle : prefix_to_base37 a ≤ prefix_to_base37 b) :
    ∃ l, expand_prefixset a b = Except.ok l ∧
      l.length = prefix_to_base37 b - prefix_to_base37 a + 1 ∧
      l.head? = some a ∧ l.getLast? = some b ∧
      (l.map prefix_to_base37).Pairwise (· < ·) := by
  refine ⟨(List.range' (prefix_to_base37 a)
    (prefix_to_base37 b + 1 - prefix_to_base37 a)).map base37_to_prefix, ?_, ?_, ?_, ?_, ?_⟩
  · simp only [expand_prefixset, List.length_range']
    rw [if_neg (by omega)]
  · simp only [List.length_map, List.length_range']
    omega
  · have hn : prefix_to_base37 b + 1 - prefix_to_base37 a =
        (prefix_to_base37 b - prefix_to_base37 a) + 1 := by omega
    rw [hn, List.range'_succ, List.map_cons, List.head?_cons,
      decode_encode a hva hha]
  · rw [List.getLast?_map,
      range'_getLast? (prefix_to_base37 a)
        (prefix_to_base37 b + 1 - prefix_to_base37 a) (by omega)]
    have he : prefix_to_base37 a + (prefix_to_base37 b + 1 - prefix_to_base37 a) - 1 =
        prefix_to_base37 b := by omega
    rw [he]
    exact congrArg some (decode_encode b hvb hhb)
  · rw [List.map_map,
      map_id_of_mem (prefix_to_base37 ∘ base37_to_prefix) _ (fun v _ => encode_decode v)]
    exact List.pairwise_lt_range' (prefix_to_base37 a)
      (prefix_to_base37 b + 1 - prefix_to_base37 a)

/-- C7 counterexample: with a = " " (encoding 0, a valid prefix
string) and b = "" (encoding 0), the range is non-inverted and the
expansion succeeds, but its first element is "" and not a. -/
theorem c7_expand_range_counterexample :
    (∀ c ∈ [' '], IsPrefixChar c) ∧
      prefix_to_base37 [' '] ≤ prefix_to_base37 ([] : List Char) ∧
      expand_prefixset [' '] [] = Except.ok [[]] ∧
      ([[]] : List (List Char)).head? ≠ some [' '] := by
  decide

/-- Witness for C7 (amended) at a = "A", b = "C". -/
theorem c7_expand_range_witness :
    ∃ l, expand_prefixset ['A'] ['C'] = Except.ok l ∧
      l.length = prefix_to_base37 ['C'] - prefix_to_base37 ['A'] + 1 ∧
      l.head? = some ['A'] ∧ l.getLast? = some ['C'] ∧
      (l.map prefix_to_base37).Pairwise (· < ·) :=
  c7_expand_range_enumeration ['A'] ['C'] (by decide) (by decide) (by decide) (by decide)
    (by decide)

/-- C8: expand_prefixset fails (with the ValueError of the source)
exactly when encode(end) < encode(start); the failure is raised by the
emptiness check before any item is produced, and a degenerate range
start = end succeeds with exactly one item. -/
theorem c8_inverted_range_failure (s e : List Char)
    (_hvs : ∀ c ∈ s, IsPrefixChar c) (_hve : ∀ c ∈ e, IsPrefixChar c) :
    ((∃ msg, expand_prefixset s e = Except.error msg) ↔
      prefix_to_base37 e < prefix_to_base37 s) ∧
    expand_prefixset s s = Except.ok [ base37_to_prefix (prefix_to_base37 s)] := by
  constructor
  · constructor
    · rintro ⟨msg, hmsg⟩
      by_contra hlt
      push_neg at hlt
      simp only [expand_prefixset, List.length_range'] at hmsg
      rw [if_neg (by omega)] at hmsg
      exact Except.noConfusion hmsg
    · intro hlt
      refine ⟨"invalid prefix range", ?_⟩
      simp only [expand_prefixset, List.length_range']
      rw [if_pos (by omega)]
  · simp only [expand_prefixset, List.length_range']
    rw [if_neg (by omega)]
    have h1 : prefix_to_base37 s + 1 - prefix_to_base37 s = 1 := by omega
    rw [h1, List.range'_one, List.map_cons, List.map_nil]

/-- Witness for C8 at s = "B", e = "A" (inverted, fails) together with
the degenerate range at "B". -/
theorem c8_inverted_range_witness :
    ((∃ msg, expand_prefixset ['B'] ['A'] = Except.error msg) ↔
      prefix_to_base37 ['A'] < prefix_to_base37 ['B']) ∧
    expand_prefixset ['B'] ['B'] = Except.ok [ base37_to_prefix (prefix_to_base37 ['B'])] :=
  c8_inverted_range_failure ['B'] ['A'] (by decide) (by decide)


/-! Permutation property of the Fisher-Yates shuffle. -/

theorem cons_middle_swap {α : Type} (x y : α) (B C : List α) :
    List.Perm (x :: (B ++ y :: C)) (y :: (B ++ x :: C)) :=
  (List.Perm.cons x List.perm_middle).trans
    ((List.Perm.swap y x (B ++ C)).trans (List.Perm.cons y List.perm_middle.symm))

theorem append_swap_perm {α : Type} (A B C : List α) (x y : α) :
    List.Perm (A ++ x :: (B ++ y :: C)) (A ++ y :: (B ++ x :: C)) :=
  List.Perm.append_left A (cons_middle_swap x y B C)

theorem set_getElem_self_eq {α : Type} (l : List α) (i : Nat) (hi : i < l.length) :
    l.set i l[i] = l := by
  rw [List.set_eq_take_cons_drop l[i] hi, ← List.drop_eq_getElem_cons hi,
    List.take_append_drop]

theorem set_set_swap_perm {α : Type} (l : List α) (i j : Nat) (hi : i < l.length)
    (hj : j < l.length) (hij : i < j) :
    List.Perm ((l.set i l[j]).set j l[i]) l := by
  have hP : (l.take i ++ l[j] :: (l.drop (i + 1)).take (j - i - 1)).length = j := by
    simp
    omega
  have hdij : (l.drop (i + 1)).drop (j - i - 1) = l.drop j := by
    rw [List.drop_drop]
    congr 1
    omega
  have hdropi : l.drop (i + 1) =
      (l.drop (i + 1)).take (j - i - 1) ++ (l[j] :: l.drop (j + 1)) := by
    conv_lhs => rw [← List.take_append_drop (j - i - 1) (l.drop (i + 1))]
    rw [hdij, List.drop_eq_getElem_cons hj]
  have h1 : l =
      l.take i ++ l[i] :: ((l.drop (i + 1)).take (j - i - 1) ++ l[j] :: l.drop (j + 1)) := by
    conv_lhs => rw [← List.take_append_drop i l, List.drop_eq_getElem_cons hi, hdropi]
  have hM : l.set i l[j] =
      (l.take i ++ l[j] :: (l.drop (i + 1)).take (j - i - 1)) ++ (l[j] :: l.drop (j + 1)) := by
    rw [List.set_eq_take_cons_drop l[j] hi]
    conv_lhs => rw [hdropi]
    simp [List.append_assoc]
  have hj2 : j < (l.set i l[j]).length := by
    rw [List.length_set]
    exact hj
  have htake : (l.set i l[j]).take j =
      l.take i ++ l[j] :: (l.drop (i + 1)).take (j - i - 1) := by
    rw [hM, List.take_left' hP]
  have hPy : ((l.take i ++ l[j] :: (l.drop (i + 1)).take (j - i - 1)) ++ [l[j]]).length =
      j + 1 := by
    rw [List.length_append, hP]
    rfl
  have hdrop : (l.set i l[j]).drop (j + 1) = l.drop (j + 1) := by
    rw [hM, List.append_cons (l.take i ++ l[j] :: (l.drop (i + 1)).take (j - i - 1)) l[j]
      (l.drop (j + 1)), List.drop_left' hPy]
  have h2 : (l.set i l[j]).set j l[i] =
      l.take i ++ l[j] :: ((l.drop (i + 1)).take (j - i - 1) ++ l[i] :: l.drop (j + 1)) := by
    rw [List.set_eq_take_cons_drop l[i] hj2, htake, hdrop]
    simp [List.append_assoc]
  rw [h2]
  conv_rhs => rw [h1]
  exact (append_swap_perm _ _ _ l[i] l[j]).symm

theorem listSwap_perm {α : Type} (l : List α) (i j : Nat) : List.Perm (listSwap l i j) l := by
  rcases hx : l[i]? with _ | x
  · simp [listSwap, hx]
  · rcases hy : l[j]? with _ | y
    · simp [listSwap, hx, hy]
    · obtain ⟨hi, rfl⟩ := List.getElem?_eq_some_iff.mp hx
      obtain ⟨hj, rfl⟩ := List.getElem?_eq_some_iff.mp hy
      have hswap : listSwap l i j = (l.set i l[j]).set j l[i] := by
        simp [listSwap, hx, hy]
      rw [hswap]
      rcases Nat.lt_trichotomy i j with hij | rfl | hij
      · exact set_set_swap_perm l i j hi hj hij
      · rw [List.set_set, set_getElem_self_eq l i hi]
      · rw [List.set_comm _ _ _ (Nat.ne_of_lt hij).symm]
        exact set_set_swap_perm l j i hj hi hij

theorem shuffleGo_perm {α : Type} : ∀ (n : Nat) (l : List α) (g : Rng),
    List.Perm (shuffleGo l g n).1 l
  | 0, l, _ => List.Perm.refl l
  | n + 1, l, g =>
    (shuffleGo_perm n (listSwap l (n + 1) (randbelow g (n + 2)).1)
      (randbelow g (n + 2)).2).trans (listSwap_perm l (n + 1) (randbelow g (n + 2)).1)

theorem shuffle_perm {α : Type} (l : List α) (g : Rng) : List.Perm (shuffle l g).1 l :=
  shuffleGo_perm (l.length - 1) l g

/-! Scheduler lemmas. -/

theorem train_partition_eq_filter {κ : Type} (sub : κ → Option (List ℚ)) (l : List κ) :
    train_partition sub l =
      (l.filter (fun p => decide (toTrainCriterion sub p)),
       l.filter (fun p => !decide (toTrainCriterion sub p))) := by
  induction l with
  | nil => rfl
  | cons pair rest ih =>
    by_cases hc : toTrainCriterion sub pair
    · have hbranch : train_partition sub (pair :: rest) =
          (pair :: (train_partition sub rest).1, (train_partition sub rest).2) := by
        simp only [train_partition]
        by_cases h1 : lastWindow ((sub pair).getD []) = []
        · rw [if_pos h1]
        · rcases hc with h | h23
          · exact absurd h h1
          · rw [if_neg h1, if_pos h23]
      have hpos : decide (toTrainCriterion sub pair) = true := decide_eq_true hc
      rw [hbranch, ih, List.filter_cons_of_pos (p := fun p => decide (toTrainCriterion sub p))
        hpos, List.filter_cons_of_neg (p := fun p => !decide (toTrainCriterion sub p))
        (by simp [hpos])]
    · have h1 : ¬ lastWindow ((sub pair).getD []) = [] := fun h => hc (Or.inl h)
      have h23 : ¬ ((lastWindow ((sub pair).getD [])).sum /
            ((lastWindow ((sub pair).getD [])).length : ℚ) < TRAIN_THRESHOLD ∨
          ((lastWindow ((sub pair).getD [])).length : ℚ) < (TRAIN_KEEP : ℚ) / 2) :=
        fun h => hc (Or.inr h)
      have hbranch : train_partition sub (pair :: rest) =
          ((train_partition sub rest).1, pair :: (train_partition sub rest).2) := by
        simp only [train_partition]
        rw [if_neg h1, if_neg h23]
      have hneg : decide (toTrainCriterion sub pair) = false := decide_eq_false hc
      rw [hbranch, ih, List.filter_cons_of_neg (p := fun p => decide (toTrainCriterion sub p))
        (by simp [hneg]), List.filter_cons_of_pos
        (p := fun p => !decide (toTrainCriterion sub p)) (by simp [hneg])]

/-- C3: a candidate pair of grouped_db lands in to_train exactly when
its history window (the last TRAIN_KEEP = 5 recorded scores) is
absent/empty, or the window mean is below TRAIN_THRESHOLD (0.8), or
the window holds fewer than TRAIN_KEEP / 2 entries; otherwise (and
only otherwise) it lands in already_trained.  The partition is
computed before any shuffle and takes no random source, so membership
in to_train is independent of any rng seed. -/
theorem c3_partition_criterion {κ : Type} (sub : κ → Option (List ℚ))
    (grouped_db : List κ) (pair : κ) (hmem : pair ∈ grouped_db) :
    (pair ∈ (train_partition sub grouped_db).1 ↔ toTrainCriterion sub pair) ∧
    (pair ∈ (train_partition sub grouped_db).2 ↔ ¬ toTrainCriterion sub pair) := by
  rw [train_partition_eq_filter]
  constructor
  · simp [List.mem_filter, hmem]
  · simp [List.mem_filter, hmem]

/-- Witness for C3: a pair with no history satisfies the criterion and
is in to_train, not in already_trained. -/
theorem c3_partition_criterion_witness :
    ((0 : ℕ) ∈ (train_partition (fun _ => none) [0]).1 ↔
      toTrainCriterion (fun _ : ℕ => none) 0) ∧
    ((0 : ℕ) ∈ (train_partition (fun _ => none) [0]).2 ↔
      ¬ toTrainCriterion (fun _ : ℕ => none) 0) :=
  c3_partition_criterion (fun _ => none) [0] 0 (by decide)

/-- C4: up to the final shuffle, the directional training set is the
first TRAIN_SET_SIZE elements of to_train followed by elements of the
shuffled already_trained padding the total to TRAIN_SET_SIZE +
TRAIN_RETRAIN; the result never exceeds TRAIN_SET_SIZE + TRAIN_RETRAIN
items, contains only items of the two partitions with no multiplicity
invented, and when already_trained is empty it is a permutation of the
first TRAIN_SET_SIZE elements of to_train alone. -/
theorem c4_session_composition {κ : Type} [DecidableEq κ] (sub : κ → Option (List ℚ))
    (grouped_db : List κ) (g : Rng) (t a : List κ)
    (hP : train_partition sub grouped_db = (t, a)) :
    ∃ a2 : List κ, List.Perm a2 a ∧
      List.Perm (train_generate_directional_trainingset sub grouped_db g).1
        (t.take TRAIN_SET_SIZE ++
          a2.take (TRAIN_SET_SIZE - (t.take TRAIN_SET_SIZE).length + TRAIN_RETRAIN)) ∧
      (train_generate_directional_trainingset sub grouped_db g).1.length ≤
        TRAIN_SET_SIZE + TRAIN_RETRAIN ∧
      (∀ x ∈ (train_generate_directional_trainingset sub grouped_db g).1, x ∈ t ∨ x ∈ a) ∧
      (∀ x : κ, (train_generate_directional_trainingset sub grouped_db g).1.count x ≤
        t.count x + a.count x) ∧
      (a = [] → List.Perm (train_generate_directional_trainingset sub grouped_db g).1
        (t.take TRAIN_SET_SIZE)) := by
  have hgen : train_generate_directional_trainingset sub grouped_db g =
      shuffle (t.take TRAIN_SET_SIZE ++ (shuffle a g).1.take
        (TRAIN_SET_SIZE - (t.take TRAIN_SET_SIZE).length + TRAIN_RETRAIN)) (shuffle a g).2 := by
    simp only [train_generate_directional_trainingset, hP]
  have h15 : TRAIN_SET_SIZE = 15 := rfl
  have h5 : TRAIN_RETRAIN = 5 := rfl
  refine ⟨(shuffle a g).1, shuffle_perm a g, ?_, ?_, ?_, ?_, ?_⟩
  · rw [hgen]
    exact shuffle_perm _ _
  · rw [hgen, (shuffle_perm _ _).length_eq, List.length_append]
    have hta : (t.take TRAIN_SET_SIZE).length ≤ TRAIN_SET_SIZE := List.length_take_le _ _
    have htb : ((shuffle a g).1.take
        (TRAIN_SET_SIZE - (t.take TRAIN_SET_SIZE).length + TRAIN_RETRAIN)).length ≤
        TRAIN_SET_SIZE - (t.take TRAIN_SET_SIZE).length + TRAIN_RETRAIN :=
      List.length_take_le _ _
    omega
  · intro x hx
    rw [hgen] at hx
    rcases List.mem_append.mp ((shuffle_perm _ _).mem_iff.mp hx) with h | h
    · exact Or.inl (List.mem_of_mem_take h)
    · exact Or.inr ((shuffle_perm a g).mem_iff.mp (List.mem_of_mem_take h))
  · intro x
    rw [hgen, (shuffle_perm _ _).count_eq, List.count_append]
    have h1 : (t.take TRAIN_SET_SIZE).count x ≤ t.count x :=
      (List.take_sublist _ _).count_le x
    have h2 : ((shuffle a g).1.take
        (TRAIN_SET_SIZE - (t.take TRAIN_SET_SIZE).length + TRAIN_RETRAIN)).count x ≤
        a.count x :=
      Nat.le_trans ((List.take_sublist _ _).count_le x)
        (Nat.le_of_eq ((shuffle_perm a g).count_eq x))
    omega
  · intro ha
    subst ha
    have hA2 : (shuffle ([] : List κ) g).1 = [] := (shuffle_perm [] g).eq_nil
    rw [hgen, hA2]
    simp only [List.take_nil, List.append_nil]
    exact shuffle_perm _ _

/-- Witness for C4 on a two-element database with empty history (both
pairs in to_train, already_trained empty). -/
theorem c4_session_composition_witness :
    ∃ a2 : List ℕ, List.Perm a2 [] ∧
      List.Perm (train_generate_directional_trainingset (fun _ => none) [1, 2]
          ⟨fun _ => 0, 0⟩).1
        (([1, 2] : List ℕ).take TRAIN_SET_SIZE ++
          a2.take (TRAIN_SET_SIZE - (([1, 2] : List ℕ).take TRAIN_SET_SIZE).length +
            TRAIN_RETRAIN)) ∧
      (train_generate_directional_trainingset (fun _ => none) [1, 2]
        ⟨fun _ => 0, 0⟩).1.length ≤ TRAIN_SET_SIZE + TRAIN_RETRAIN ∧
      (∀ x ∈ (train_generate_directional_trainingset (fun _ => none) [1, 2]
        ⟨fun _ => 0, 0⟩).1, x ∈ ([1, 2] : List ℕ) ∨ x ∈ ([] : List ℕ)) ∧
      (∀ x : ℕ, (train_generate_directional_trainingset (fun _ => none) [1, 2]
          ⟨fun _ => 0, 0⟩).1.count x ≤
        ([1, 2] : List ℕ).count x + ([] : List ℕ).count x) ∧
      (([] : List ℕ) = [] → List.Perm (train_generate_directional_trainingset
        (fun _ => none) [1, 2] ⟨fun _ => 0, 0⟩).1 (([1, 2] : List ℕ).take TRAIN_SET_SIZE)) :=
  c4_session_composition (fun _ => none) [1, 2] ⟨fun _ => 0, 0⟩ [1, 2] [] (by decide)

/-! Seeded determinism (C2). -/

/-- C2 counterexample: identical facts, identical history, identical
seeded rng, but two different module-level random sources, yield
different forward lists — the shuffle of already_trained and the final
interleaving shuffle in train_generate_directional_trainingset call
`random.shuffle`, the module-level source, not the seeded rng. -/
theorem c2_seeded_determinism_counterexample :
    (train_gather_trainingset ⟨fun _ => none, fun _ => none⟩
        [⟨"a", 100, [['A']]⟩, ⟨"b", 100, [['B']]⟩] ⟨fun _ => 1, 0⟩ ⟨fun _ => 0, 0⟩).1.1 ≠
    (train_gather_trainingset ⟨fun _ => none, fun _ => none⟩
        [⟨"a", 100, [['A']]⟩, ⟨"b", 100, [['B']]⟩] ⟨fun _ => 1, 0⟩ ⟨fun _ => 1, 0⟩).1.1 := by
  decide

/-- C2 (amended): training-set construction is deterministic in the
facts, the history, the seeded rng AND the module-level random source
together: pointwise equal draw streams at equal positions produce
identical forward and reverse lists.  Determinism in the seed alone
fails, because only the per-priority-group shuffle draws from the
seeded rng while both shuffles of
train_generate_directional_trainingset draw from the module-level
source. -/
theorem c2_seeded_determinism_amended (traindata : TrainData) (db : List Row)
    (b1 b1g b2 b2g : Nat → Nat) (p1 p1g p2 p2g : Nat)
    (hb : ∀ n, b1 n = b2 n) (hp : p1 = p2) (hbg : ∀ n, b1g n = b2g n) (hpg : p1g = p2g) :
    (train_gather_trainingset traindata db ⟨b1, p1⟩ ⟨b1g, p1g⟩).1 =
    (train_gather_trainingset traindata db ⟨b2, p2⟩ ⟨b2g, p2g⟩).1 := by
  have h1 : b1 = b2 := funext hb
  have h2 : b1g = b2g := funext hbg
  subst h1
  subst h2
  subst hp
  subst hpg
  rfl

/-- Witness for C2 (amended): two runs over syntactically different
but pointwise equal sources agree. -/
theorem c2_seeded_determinism_amended_witness :
    (train_gather_trainingset ⟨fun _ => none, fun _ => none⟩ [⟨"a", 100, [['A']]⟩]
      ⟨fun _ => 1, 0⟩ ⟨fun _ => 0, 0⟩).1 =
    (train_gather_trainingset ⟨fun _ => none, fun _ => none⟩ [⟨"a", 100, [['A']]⟩]
      ⟨fun _ => 1 * 1, 0⟩ ⟨fun _ => 0 * 1, 0⟩).1 :=
  c2_seeded_determinism_amended ⟨fun _ => none, fun _ => none⟩ [⟨"a", 100, [['A']]⟩]
    _ _ _ _ _ _ _ _ (fun _ => rfl) rfl (fun _ => rfl) rfl

/-- C10: training-set construction never changes the history store:
the store threaded through train_gather_trainingset comes back with
both sub-maps pointwise identical — the embedded source functions only
read it (`trainsubdata.get(pair, [])`), never write. -/
theorem c10_scheduling_readonly (traindata : TrainData) (db : List Row) (rng g : Rng) :
    (∀ q, ((train_gather_trainingset traindata db rng g).2.1).forward q =
      traindata.forward q) ∧
    (∀ q, ((train_gather_trainingset traindata db rng g).2.1).reverse q =
      traindata.reverse q) :=
  ⟨fun _ => rfl, fun _ => rfl⟩

/-! Scoring engine lemmas. -/

theorem penalty_factor_bounds (m d : ℕ) (hmd : m ≤ d) :
    0 ≤ 1 - (m : ℚ) / orOne d ∧ 1 - (m : ℚ) / orOne d ≤ 1 := by
  unfold orOne
  split_ifs with h
  · subst h
    obtain rfl : m = 0 := Nat.le_zero.mp hmd
    norm_num
  · have hd : (0 : ℚ) < d := by
      have := Nat.pos_of_ne_zero h
      exact_mod_cast this
    constructor
    · have hle : (m : ℚ) / d ≤ 1 := by
        rw [div_le_one hd]
        exact_mod_cast hmd
      linarith
    · have hge : 0 ≤ (m : ℚ) / d := by positivity
      linarith

theorem forwardScore_bounds (answer0 : Finset (List Char)) (primary : List Char)
    (others0 : List (List Char)) :
    0 ≤ forwardScore answer0 primary others0 ∧ forwardScore answer0 primary others0 ≤ 1 := by
  simp only [forwardScore]
  have hf1 := penalty_factor_bounds
    (((others0.toFinset \ {primary}) \ (answer0 \ {primary})).card)
    ((others0.toFinset \ {primary}).card) (Finset.card_le_card Finset.sdiff_subset)
  have hf2 := penalty_factor_bounds
    (((answer0 \ {primary}) \ (others0.toFinset \ {primary})).card)
    ((answer0 \ {primary}).card) (Finset.card_le_card Finset.sdiff_subset)
  have hprod0 := mul_nonneg hf1.1 hf2.1
  have hprod1 := mul_le_mul hf1.2 hf2.2 hf2.1 (by norm_num : (0:ℚ) ≤ 1)
  rw [one_mul] at hprod1
  split_ifs <;> constructor <;> linarith

/-- C5: forward grading formula.  With the primary prefix not among
the secondary prefixes, the score of train_single_forward is 0.5 for
primary membership plus the symmetric-difference-penalized secondary
component; an exact match scores exactly 1; the total always lies in
[0, 1]. -/
theorem c5_forward_grading (country : String) (primary : List Char)
    (others0 : List (List Char)) (submitted : Finset (List Char))
    (sub : PairF → Option (List ℚ)) (hns : primary ∉ others0.toFinset) :
    ((train_single_forward sub (country, primary :: others0) submitted).1 =
      (if primary ∈ submitted then (1 : ℚ) / 2 else 0) +
        ((1 - ((others0.toFinset \ submitted).card : ℚ) / orOne others0.toFinset.card) *
          (1 - (((submitted \ {primary}) \ others0.toFinset).card : ℚ) /
            orOne (submitted \ {primary}).card)) * (1 / 2)) ∧
    (submitted = insert primary others0.toFinset →
      (train_single_forward sub (country, primary :: others0) submitted).1 = 1) ∧
    0 ≤ (train_single_forward sub (country, primary :: others0) submitted).1 ∧
    (train_single_forward sub (country, primary :: others0) submitted).1 ≤ 1 := by
  have hfs : (train_single_forward sub (country, primary :: others0) submitted).1 =
      forwardScore submitted primary others0 := rfl
  have hself : others0.toFinset \ {primary} = others0.toFinset :=
    Finset.sdiff_singleton_eq_self hns
  have hmiss : others0.toFinset \ (submitted \ {primary}) = others0.toFinset \ submitted := by
    ext x
    simp only [Finset.mem_sdiff, Finset.mem_singleton]
    constructor
    · rintro ⟨hxS, hxn⟩
      exact ⟨hxS, fun hxsub => hxn ⟨hxsub, fun he => hns (he ▸ hxS)⟩⟩
    · rintro ⟨hxS, hxn⟩
      exact ⟨hxS, fun h => hxn h.1⟩
  have hmain : forwardScore submitted primary others0 =
      (if primary ∈ submitted then (1 : ℚ) / 2 else 0) +
        ((1 - ((others0.toFinset \ submitted).card : ℚ) / orOne others0.toFinset.card) *
          (1 - (((submitted \ {primary}) \ others0.toFinset).card : ℚ) /
            orOne (submitted \ {primary}).card)) * (1 / 2) := by
    simp only [forwardScore, hself]
    by_cases heq : others0.toFinset = submitted \ {primary}
    · rw [if_pos heq]
      have h0 : others0.toFinset \ submitted = ∅ := by
        rw [← hmiss, heq, Finset.sdiff_self]
      have h0b : (submitted \ {primary}) \ others0.toFinset = ∅ := by
        rw [heq, Finset.sdiff_self]
      rw [h0, h0b]
      norm_num
    · rw [if_neg heq, ← hmiss]
  rw [hfs]
  refine ⟨hmain, ?_, (forwardScore_bounds submitted primary others0).1,
    (forwardScore_bounds submitted primary others0).2⟩
  intro hsub
  subst hsub
  have hans : insert primary others0.toFinset \ {primary} = others0.toFinset := by
    rw [Finset.insert_sdiff_of_mem _ (Finset.mem_singleton_self primary), hself]
  simp only [forwardScore, hself, hans]
  rw [if_pos trivial, if_pos (Finset.mem_insert_self primary _)]
  norm_num

/-- Witness for C5: primary "A" with secondary set containing just
"B", exact-match submission. -/
theorem c5_forward_grading_witness :
    ((train_single_forward (fun _ => none) ("x", [['A'], ['B']])
        ({['A'], ['B']} : Finset (List Char))).1 =
      (if ['A'] ∈ ({['A'], ['B']} : Finset (List Char)) then (1 : ℚ) / 2 else 0) +
        ((1 - (([['B']].toFinset \ ({['A'], ['B']} : Finset (List Char))).card : ℚ) /
            orOne [['B']].toFinset.card) *
          (1 - (((({['A'], ['B']} : Finset (List Char)) \ {['A']}) \ [['B']].toFinset).card : ℚ) /
            orOne (({['A'], ['B']} : Finset (List Char)) \ {['A']}).card)) * (1 / 2)) ∧
    (({['A'], ['B']} : Finset (List Char)) = insert ['A'] [['B']].toFinset →
      (train_single_forward (fun _ => none) ("x", [['A'], ['B']])
        ({['A'], ['B']} : Finset (List Char))).1 = 1) ∧
    0 ≤ (train_single_forward (fun _ => none) ("x", [['A'], ['B']])
      ({['A'], ['B']} : Finset (List Char))).1 ∧
    (train_single_forward (fun _ => none) ("x", [['A'], ['B']])
      ({['A'], ['B']} : Finset (List Char))).1 ≤ 1 :=
  c5_forward_grading "x" ['A'] [['B']] ({['A'], ['B']} : Finset (List Char))
    (fun _ => none) (by decide)

/-- C6: reverse grading binarization.  The returned score is exactly 1
when the similarity of the submission with the expected country
reaches TRAIN_CORRECT_THRESHOLD and exactly 0 otherwise; an absent
(empty) submission always scores 0; no intermediate value is ever
returned. -/
theorem c6_reverse_binarization (similarity : String → String → ℚ)
    (sub : PairR → Option (List ℚ)) (primary : List Char)
    (restPrefixes : List (List Char)) (country : String) (ans : String) :
    ((train_single_reverse similarity sub (primary :: restPrefixes, country) (some ans)).1 =
      if TRAIN_CORRECT_THRESHOLD ≤ similarity ans country then 1 else 0) ∧
    (train_single_reverse similarity sub (primary :: restPrefixes, country) none).1 = 0 ∧
    ((train_single_reverse similarity sub (primary :: restPrefixes, country) (some ans)).1 = 0 ∨
      (train_single_reverse similarity sub (primary :: restPrefixes, country) (some ans)).1 = 1) := by
  have hsome : (train_single_reverse similarity sub (primary :: restPrefixes, country)
      (some ans)).1 = if TRAIN_CORRECT_THRESHOLD ≤ similarity ans country then 1 else 0 := rfl
  have hnone : (train_single_reverse similarity sub (primary :: restPrefixes, country)
      none).1 = if TRAIN_CORRECT_THRESHOLD ≤ (0 : ℚ) then 1 else 0 := rfl
  refine ⟨hsome, ?_, ?_⟩
  · rw [hnone, if_neg]
    rw [TRAIN_CORRECT_THRESHOLD]
    norm_num
  · rw [hsome]
    by_cases h : TRAIN_CORRECT_THRESHOLD ≤ similarity ans country
    · exact Or.inr (if_pos h)
    · exact Or.inl (if_neg h)

/-- C9: every forward or reverse grading appends exactly the returned
score to the graded pair's history entry (an absent entry is created
as the empty sequence first), for any submission including the
empty/absent one, and leaves every other pair's entry unchanged. -/
theorem c9_history_append (sub : PairF → Option (List ℚ)) (subR : PairR → Option (List ℚ))
    (similarity : String → String → ℚ) (country : String) (primary : List Char)
    (others0 restPrefixes : List (List Char)) (answer : Finset (List Char))
    (ansR : Option String) :
    ((train_single_forward sub (country, primary :: others0) answer).2
        (country, primary :: others0) =
      some ((sub (country, primary :: others0)).getD [] ++
        [(train_single_forward sub (country, primary :: others0) answer).1]) ∧
     (∀ q, q ≠ (country, primary :: others0) →
      (train_single_forward sub (country, primary :: others0) answer).2 q = sub q)) ∧
    ((train_single_reverse similarity subR (primary :: restPrefixes, country) ansR).2
        (primary :: restPrefixes, country) =
      some ((subR (primary :: restPrefixes, country)).getD [] ++
        [(train_single_reverse similarity subR (primary :: restPrefixes, country) ansR).1]) ∧
     (∀ q, q ≠ (primary :: restPrefixes, country) →
      (train_single_reverse similarity subR (primary :: restPrefixes, country) ansR).2 q =
        subR q)) := by
  refine ⟨⟨?_, ?_⟩, ?_, ?_⟩
  · show histAppend sub (country, primary :: others0)
        (forwardScore answer primary others0) (country, primary :: others0) = _
    rw [histAppend, if_pos rfl]
    rfl
  · intro q hq
    show histAppend sub (country, primary :: others0)
        (forwardScore answer primary others0) q = sub q
    rw [histAppend, if_neg hq]
  · show histAppend subR (primary :: restPrefixes, country) _ (primary :: restPrefixes, country) = _
    rw [histAppend, if_pos rfl]
    rfl
  · intro q hq
    show histAppend subR (primary :: restPrefixes, country) _ q = subR q
    rw [histAppend, if_neg hq]

/-- Witness for C9: grading the pair ("x", ["A"]) with the empty
submission appends its score to that pair's (previously absent) entry
and leaves the entry of another pair ("y", ["B"]) absent; same for one
reverse grading with an absent submission. -/
theorem c9_history_append_witness :
    ((train_single_forward (fun _ => none) ("x", [['A']]) ∅).2 ("x", [['A']]) =
      some [(train_single_forward (fun _ => none) ("x", [['A']]) ∅).1]) ∧
    ((train_single_forward (fun _ => none) ("x", [['A']]) ∅).2 ("y", [['B']]) = none) ∧
    ((train_single_reverse (fun _ _ => 0) (fun _ => none) ([['A']], "x") none).2
      ([['A']], "x") =
      some [(train_single_reverse (fun _ _ => 0) (fun _ => none) ([['A']], "x") none).1]) ∧
    ((train_single_reverse (fun _ _ => 0) (fun _ => none) ([['A']], "x") none).2
      ([['B']], "y") = none) :=
  ⟨(c9_history_append (fun _ => none) (fun _ => none) (fun _ _ => 0) "x" ['A'] [] [] ∅
      none).1.1,
   (c9_history_append (fun _ => none) (fun _ => none) (fun _ _ => 0) "x" ['A'] [] [] ∅
      none).1.2 ("y", [['B']]) (by decide),
   (c9_history_append (fun _ => none) (fun _ => none) (fun _ _ => 0) "x" ['A'] [] [] ∅
      none).2.1,
   (c9_history_append (fun _ => none) (fun _ => none) (fun _ _ => 0) "x" ['A'] [] [] ∅
      none).2.2 ([['B']], "y") (by decide)⟩
